import Mathlib

/-!
Shallow embedding of the icd-rag-agent retrieval pipeline.

Strings from the Python source are modelled as `List Char` (`Str`), external
collaborators (the vector retriever and the generative model) as function
parameters, and fallible embedding calls as `Option`-valued functions.
Python's `str.lower()` is modelled by `Char.toLower` (ASCII fragment) and
`str.strip()` by dropping whitespace from both ends.
-/

namespace IcdRag

abbrev Str := List Char

/-! ### app.py: synonym table and query expansion (lines 17-36) -/

/-- The static informal-to-formal synonym table, `SYNONYM_MAP` in app.py,
in its Python insertion order. -/
def SYNONYM_MAP : List (Str × Str) :=
  [ ("heart attack".toList, "myocardial infarction".toList),
    ("stroke".toList, "cerebrovascular accident".toList),
    ("flu".toList, "influenza".toList),
    ("chickenpox".toList, "varicella".toList),
    ("whooping cough".toList, "pertussis".toList),
    ("lockjaw".toList, "tetanus".toList),
    ("german measles".toList, "rubella".toList) ]

/-- Python `s.lower()` (ASCII fragment). -/
def lowerStr (s : Str) : Str := s.map Char.toLower

/-- Python `s.strip()`: drop whitespace from both ends. -/
def stripStr (s : Str) : Str :=
  List.rdropWhile Char.isWhitespace (s.dropWhile Char.isWhitespace)

/-- app.py line 31: `normalized_query = query.lower().strip()`. -/
def normalizeQuery (q : Str) : Str := stripStr (lowerStr q)

/-- One iteration of the synonym loop, app.py lines 34-36: if the informal
term occurs in the (evolving) query, append a space and the formal term. -/
def expandStep (acc : Str) (p : Str × Str) : Str :=
  if p.1 <:+: acc then acc ++ ' ' :: p.2 else acc

/-- The query expansion of app.py lines 31-36: normalize, then run the
synonym loop over the table in order, mutating the query as it goes. -/
def expandQuery (q : Str) : Str :=
  SYNONYM_MAP.foldl expandStep (normalizeQuery q)

/-- The expansion suffix described by the spec: one `" " ++ formal` block per
table entry whose informal term is a substring of `n`, in table order. -/
def synExtras (n : Str) : Str :=
  ((SYNONYM_MAP.filter fun p => decide (p.1 <:+: n)).map fun p => ' ' :: p.2).flatten

/-! ### app.py: retrieval (lines 28-52) -/

/-- A document returned by the Chroma retriever: `page_content` plus the
metadata fields read by `medical_chat` (each may be absent, app.py line 85
supplies `.get` defaults). -/
structure RetrievedDoc where
  page_content : Str
  icd_code : Option Str
  browser_url : Option Str
deriving DecidableEq

/-- Separator used to join chunk texts, app.py line 51. -/
def nlnl : Str := "\n\n".toList

/-- app.py line 51-52: join page contents with blank lines and strip. -/
def combinedContext (docs : List RetrievedDoc) : Str :=
  stripStr (List.intercalate nlnl (docs.map RetrievedDoc.page_content))

/-- The first synonym pair whose informal term occurs in `query.lower()`
(note: not stripped), app.py lines 43-46. -/
def synFallbackMatch (query : Str) : Option (Str × Str) :=
  SYNONYM_MAP.find? fun p => decide (p.1 <:+: lowerStr query)

/-- `retrieve_icd_context` of app.py lines 28-52, with the retriever
(`retriever.invoke`) passed in as `invoke`, instrumented to also return the
list of query strings passed to the retriever, in call order. -/
def retrieve_icd_context_t (invoke : Str → List RetrievedDoc) (query : Str) :
    (Str × List RetrievedDoc) × List Str :=
  let normalized_query := expandQuery query
  let docs := invoke normalized_query
  let docsCalls :=
    if docs.isEmpty then
      match synFallbackMatch query with
      | some p => (invoke p.2, [normalized_query, p.2])
      | none => (docs, [normalized_query])
    else (docs, [normalized_query])
  if docsCalls.1.isEmpty then (([], []), docsCalls.2)
  else ((combinedContext docsCalls.1, docsCalls.1), docsCalls.2)

/-- `retrieve_icd_context` proper: the (context, docs) pair. -/
def retrieve_icd_context (invoke : Str → List RetrievedDoc) (query : Str) :
    Str × List RetrievedDoc :=
  (retrieve_icd_context_t invoke query).1

/-! ### app.py: medical_chat (lines 55-96) -/

/-- app.py line 62: the fixed fallback sentinel (note the leading space,
as in the source). -/
def fallbackAnswer : Str :=
  " I couldn’t find an exact ICD-11 match for your query. Try rephrasing or be more specific.".toList

/-- Fixed prompt text before the context block, app.py lines 65-73. -/
def promptHeader : Str :=
  "\nYou are a WHO ICD-11 medical assistant.\n- Use ONLY the provided ICD-11 context for accuracy.\n- If the user’s query is slightly different but semantically related, explain the closest ICD-11 match.\n- If there is *no relevant* ICD-11 entry, say:\n\"I’m not sure, this information is not found in ICD-11.\"\n\nICD-11 Context:\n".toList

/-- Fixed prompt text between context and question, app.py line 75. -/
def promptMid : Str := "\n\nUser Question: ".toList

/-- Fixed prompt text after the question, app.py line 77. -/
def promptTail : Str := "\n\nAnswer in a clear, medical style:\n".toList

/-- The f-string prompt of app.py lines 65-78. -/
def buildPrompt (context user : Str) : Str :=
  promptHeader ++ context ++ promptMid ++ user ++ promptTail

/-- One markdown citation link, app.py line 85:
`[icd_code](browser_url)` with `.get` defaults `unknown` and `#`. -/
def citationEntry (d : RetrievedDoc) : Str :=
  "[".toList ++ d.icd_code.getD "unknown".toList
    ++ "](".toList ++ d.browser_url.getD "#".toList ++ ")".toList

/-- Header of the citation footer, app.py line 88. -/
def refsHeader : Str := "\n\n📚 **ICD-11 References:** ".toList

/-- The citation footer, app.py lines 84-88: one link per retrieved doc,
joined by `, `. -/
def refsFooter (docs : List RetrievedDoc) : Str :=
  refsHeader ++ List.intercalate ", ".toList (docs.map citationEntry)

/-- The marker appended when no docs were retrieved, app.py line 90. -/
def noMatchFooter : Str := "\n\n⚠️ *No exact ICD-11 match found.*".toList

/-- One chat history entry, the Gradio role-based message format. -/
structure ChatMsg where
  role : Str
  content : Str
deriving DecidableEq

/-- Role string of a user turn. -/
def roleUser : Str := "user".toList

/-- Role string of an assistant turn. -/
def roleAssistant : Str := "assistant".toList

/-- `medical_chat` of app.py lines 55-96. The retriever and the generative
model are passed in as functions; `history or []` is the identity on our
`List ChatMsg` model of the history. -/
def medical_chat (invoke : Str → List RetrievedDoc) (llm : Str → Str)
    (user_message : Str) (history : List ChatMsg) :
    List ChatMsg × List ChatMsg :=
  let r := retrieve_icd_context invoke user_message
  let context := r.1
  let docs := r.2
  let answerBody :=
    if context = [] ∨ context.length < 50 then fallbackAnswer
    else stripStr (llm (buildPrompt context user_message))
  let answer :=
    if docs.isEmpty then answerBody ++ noMatchFooter
    else answerBody ++ refsFooter docs
  let newHistory :=
    history ++ [⟨roleUser, user_message⟩, ⟨roleAssistant, answer⟩]
  (newHistory, newHistory)

/-- A concrete retrieved chunk with a short text, used as a test input. -/
def exampleShortDoc : RetrievedDoc :=
  ⟨"hi".toList, some "A00".toList, some "u".toList⟩

/-- Two concrete retrieved chunks carrying the same ICD code, used as a test
input. -/
def exampleDupDocs : List RetrievedDoc :=
  [⟨"hi".toList, some "5A11".toList, some "u".toList⟩,
   ⟨"ho".toList, some "5A11".toList, some "u".toList⟩]

/-! ### preprocess.py: ingestion pass 1 (lines 41-115) -/

/-- A parsed ICD JSON entry: the fields preprocess.py reads, each optional
exactly where the source supplies a `.get` default. A synonym entry whose
`label.@value` is missing defaults to the empty string (line 52). -/
structure IcdEntry where
  atId : Option Str
  title : Option Str
  synonymLabels : List (Option Str)
  definition : Option Str
  browserUrl : Option Str

/-- One input JSON file: its stem (used when `@id` is missing) and its
parsed entry. -/
structure InputFile where
  stem : Str
  entry : IcdEntry

/-- Python `raw_id.rstrip("/")`. -/
def rstripSlashes (s : Str) : Str :=
  List.rdropWhile (fun c => decide (c = '/')) s

/-- Python `s.split(sep)` for a one-character separator. -/
def splitOnChar (sep : Char) : Str → List Str
  | [] => [[]]
  | c :: cs =>
    if c = sep then [] :: splitOnChar sep cs
    else
      match splitOnChar sep cs with
      | [] => [[c]]
      | h :: t => (c :: h) :: t

/-- `extract_code_from_id` of preprocess.py lines 45-47:
`raw_id.rstrip("/").split("/")[-1]`. -/
def extract_code_from_id (raw : Str) : Str :=
  (splitOnChar '/' (rstripSlashes raw)).getLastD []

/-- `entry_to_text` of preprocess.py lines 49-64. -/
def entry_to_text (e : IcdEntry) (code : Str) : Str :=
  let title := e.title.getD ("Untitled ICD Entry ".toList ++ code)
  let synonyms := e.synonymLabels.map fun s => s.getD []
  let defn := e.definition.getD []
  let url := e.browserUrl.getD []
  let parts :=
    ["Title: ".toList ++ title]
      ++ (if synonyms.isEmpty then []
          else ["Synonyms: ".toList ++ List.intercalate "; ".toList synonyms])
      ++ (if defn.isEmpty then [] else ["Definition: ".toList ++ defn])
      ++ (if url.isEmpty then [] else ["SourceURL: ".toList ++ url])
      ++ ["ICDCode: ".toList ++ code]
  List.intercalate "\n".toList parts

/-- Characters kept by `re.sub(r"[^\w\- ]", "", ...)` (ASCII fragment of
Python `\w`). -/
def keepFnameChar (c : Char) : Bool :=
  c.isAlphanum || c = '_' || c = '-' || c = ' '

/-- The sanitized output filename of preprocess.py lines 104-105:
strip disallowed characters from `f"{code}_{title}"`, truncate to 80,
append `.txt`. -/
def sanitizedFileName (code title : Str) : Str :=
  ((code ++ '_' :: title).filter keepFnameChar).take 80 ++ ".txt".toList

/-- The ICD code of an input file, preprocess.py line 94:
`extract_code_from_id(data.get("@id", jf.stem))`. -/
def fileCode (f : InputFile) : Str :=
  extract_code_from_id (f.entry.atId.getD f.stem)

/-- Whether the entry has a (truthy) definition, preprocess.py lines 98-99. -/
def hasDefinition (f : InputFile) : Bool :=
  !(f.entry.definition.getD []).isEmpty

/-- The text file written for one input file, preprocess.py lines 103-106:
(sanitized filename, text block). The filename uses the raw title default
`""` (line 104), not the `Untitled` placeholder. -/
def outputFile (f : InputFile) : Str × Str :=
  (sanitizedFileName (fileCode f) (f.entry.title.getD []),
   entry_to_text f.entry (fileCode f))

/-- Pass 1 of `build_index`, preprocess.py lines 90-107: fold over the input
files, either skipping an entry with no definition (counting it) or writing
its text file. Returns (written files in order, skipped count); the count is
what the final summary on line 114 reports. -/
def pass1 (skipMissingDefs : Bool) (files : List InputFile) :
    List (Str × Str) × Nat :=
  files.foldl
    (fun acc f =>
      if skipMissingDefs && !hasDefinition f then (acc.1, acc.2 + 1)
      else (acc.1 ++ [outputFile f], acc.2))
    ([], 0)

/-! ### Chunker (spec §4.2), used by preprocess.py pass 2 -/

/-- Modelled from the spec: the chunking algorithm itself lives in the
`RecursiveCharacterTextSplitter` library class, which is not part of this
repository; per §4.2 the chunker is `split(text, max_size, overlap)`, an
ordered sequence of substrings covering the whole input in which consecutive
chunks share up to `overlap` characters, each chunk bounded by `max_size`. -/
def splitText (maxSize overlap : Nat) (t : Str) : List Str :=
  if h : t.length ≤ maxSize ∨ maxSize ≤ overlap then [t]
  else t.take maxSize :: splitText maxSize overlap (t.drop (maxSize - overlap))
termination_by t.length
decreasing_by
  simp only [List.length_drop]
  omega

/-- Concatenate chunks with the overlap removed from every chunk after the
first. -/
def reconstructChunks (overlap : Nat) : List Str → Str
  | [] => []
  | c :: cs => c ++ (cs.map fun d => d.drop overlap).flatten

/-! ### Indexer batch loop (preprocess.py lines 142-155) -/

/-- The batches `docs[i:i+batch_size]` of the embedding loop, preprocess.py
lines 143-144. -/
def chunksOf {α : Type} (B : Nat) (l : List α) : List (List α) :=
  if h : l.isEmpty ∨ B = 0 then []
  else l.take B :: chunksOf B (l.drop B)
termination_by l.length
decreasing_by
  simp only [List.isEmpty_iff, List.length_drop] at *
  have : 0 < l.length := List.length_pos.mpr (by tauto)
  omega

/-- The batch loop of preprocess.py lines 142-155: embed a batch (`emb`,
which may fail, modelling embedding-service unavailability), append it to
the persisted index and persist, then continue; a failure aborts the loop
and leaves the index as already persisted. `persisted` models the on-disk
Chroma contents after the last `vectordb.persist()`. -/
def persistLoop {α β : Type} (emb : List α → Option (List β)) (B : Nat)
    (persisted : List β) (docs : List α) : List β :=
  if h : docs.isEmpty ∨ B = 0 then persisted
  else
    match emb (docs.take B) with
    | none => persisted
    | some es => persistLoop emb B (persisted ++ es) (docs.drop B)
termination_by docs.length
decreasing_by
  simp only [List.isEmpty_iff, List.length_drop] at *
  have : 0 < docs.length := List.length_pos.mpr (by tauto)
  omega

/-- The embeddings of the longest prefix of batches on which `emb` succeeds,
concatenated in order. -/
def embeddedRun {α β : Type} (emb : List α → Option (List β)) :
    List (List α) → List β
  | [] => []
  | b :: bs =>
    match emb b with
    | none => []
    | some es => es ++ embeddedRun emb bs

/-- Appending `b` to any string cannot create a new occurrence of the
pattern `p`: `p` does not occur inside `b`, and no proper nonempty tail of
`p` is a prefix of `b` (so no occurrence can straddle the append point). -/
def NoNewOccurrence (p b : Str) : Prop :=
  ¬ p <:+: b ∧ ∀ i, i < p.length → 0 < i → ¬ p.drop i <+: b

instance (p b : Str) : Decidable (NoNewOccurrence p b) := by
  unfold NoNewOccurrence
  infer_instance

/-! ### Lemmas: query expansion -/

lemma infix_append_right_iff {p a b : Str} (h : NoNewOccurrence p b) :
    p <:+: a ++ b ↔ p <:+: a := by
  obtain ⟨hb, hs⟩ := h
  constructor
  · rintro ⟨s, t, hst⟩
    rw [List.append_assoc] at hst
    rcases List.append_eq_append_iff.mp hst.symm with ⟨u, hu1, hu2⟩ | ⟨v, hv1, hv2⟩
    · exact absurd (⟨u, t, by rw [List.append_assoc, hu2]⟩ : p <:+: b) hb
    · rcases List.append_eq_append_iff.mp hv2 with ⟨x, hx1, hx2⟩ | ⟨y, hy1, hy2⟩
      · exact ⟨s, x, by rw [List.append_assoc, ← hx1, ← hv1]⟩
      · rcases eq_or_ne y [] with rfl | hy
        · rw [List.append_nil] at hy1
          exact ⟨s, [], by rw [List.append_nil, hy1, ← hv1]⟩
        · rcases eq_or_ne v [] with rfl | hv
          · rw [List.nil_append] at hy1
            exact absurd (⟨[], t, by rw [List.nil_append, hy1, ← hy2]⟩ : p <:+: b) hb
          · refine absurd (show p.drop v.length <+: b from ?_)
              (hs v.length ?_ ?_)
            · rw [hy1, List.drop_left]
              exact ⟨t, hy2.symm⟩
            · rw [hy1, List.length_append]
              exact Nat.lt_add_of_pos_right (List.length_pos.mpr hy)
            · exact List.length_pos.mpr hv
  · intro hp
    exact hp.trans (List.prefix_append a b).isInfix

lemma foldl_expandStep_append (t : List (Str × Str)) :
    ∀ (a extra : Str),
      (∀ p ∈ t, (p.1 <:+: a ++ extra ↔ p.1 <:+: a)) →
      (t.Pairwise fun q r => NoNewOccurrence r.1 (' ' :: q.2)) →
      t.foldl expandStep (a ++ extra)
        = a ++ extra
            ++ ((t.filter fun p => decide (p.1 <:+: a)).map
                fun p => ' ' :: p.2).flatten := by
  induction t with
  | nil => intro a extra _ _; simp
  | cons hd tl ih =>
    intro a extra hextra hpw
    rw [List.pairwise_cons] at hpw
    obtain ⟨hhd, htl⟩ := hpw
    simp only [List.foldl_cons]
    by_cases hmatch : hd.1 <:+: a
    · have hcond : hd.1 <:+: a ++ extra := (hextra hd (by simp)).mpr hmatch
      rw [show expandStep (a ++ extra) hd = a ++ extra ++ ' ' :: hd.2
            from if_pos hcond]
      rw [List.append_assoc a extra (' ' :: hd.2)]
      rw [ih a (extra ++ ' ' :: hd.2)
        (fun p hp => by
          rw [← List.append_assoc, infix_append_right_iff (hhd p hp)]
          exact hextra p (List.mem_cons_of_mem hd hp))
        htl]
      simp [List.filter_cons, hmatch, List.append_assoc]
    · have hcond : ¬ hd.1 <:+: a ++ extra :=
        fun hc => hmatch ((hextra hd (by simp)).mp hc)
      rw [show expandStep (a ++ extra) hd = a ++ extra from if_neg hcond]
      rw [ih a extra (fun p hp => hextra p (List.mem_cons_of_mem hd hp)) htl]
      simp [List.filter_cons, hmatch]

lemma synonymMap_pairwise :
    SYNONYM_MAP.Pairwise fun q r => NoNewOccurrence r.1 (' ' :: q.2) := by
  decide

lemma expandQuery_eq (q : Str) :
    expandQuery q = normalizeQuery q ++ synExtras (normalizeQuery q) := by
  have h := foldl_expandStep_append SYNONYM_MAP (normalizeQuery q) []
    (by simp) synonymMap_pairwise
  simpa [expandQuery, synExtras] using h

/-! ### Lemmas: normalization is idempotent -/

lemma char_toLower_def (c : Char) :
    c.toLower = if 65 ≤ c.toNat ∧ c.toNat ≤ 90 then Char.ofNat (c.toNat + 32) else c :=
  rfl

lemma char_toNat_ofNat_valid {n : Nat} (h : n.isValidChar) :
    (Char.ofNat n).toNat = n := by
  unfold Char.ofNat
  rw [dif_pos h]
  rfl

lemma char_toLower_toLower (c : Char) : c.toLower.toLower = c.toLower := by
  rw [char_toLower_def c]
  by_cases h : 65 ≤ c.toNat ∧ c.toNat ≤ 90
  · rw [if_pos h, char_toLower_def]
    have hv : (c.toNat + 32).isValidChar := Or.inl (by omega)
    rw [char_toNat_ofNat_valid hv, if_neg (by omega)]
  · rw [if_neg h, char_toLower_def, if_neg h]

lemma char_not_ws_of_ge (d : Char) (h : 33 ≤ d.toNat) :
    d.isWhitespace = false := by
  have hs : d ≠ ' ' := by intro he; rw [he] at h; exact absurd h (by decide)
  have ht : d ≠ '\t' := by intro he; rw [he] at h; exact absurd h (by decide)
  have hr : d ≠ '\r' := by intro he; rw [he] at h; exact absurd h (by decide)
  have hn : d ≠ '\n' := by intro he; rw [he] at h; exact absurd h (by decide)
  simp [Char.isWhitespace, hs, ht, hr, hn]

lemma char_isWhitespace_toLower (c : Char) :
    c.toLower.isWhitespace = c.isWhitespace := by
  rw [char_toLower_def c]
  by_cases h : 65 ≤ c.toNat ∧ c.toNat ≤ 90
  · rw [if_pos h]
    rw [char_not_ws_of_ge _
      (by rw [char_toNat_ofNat_valid (Or.inl (by omega))]; omega)]
    rw [char_not_ws_of_ge c (by omega)]
  · rw [if_neg h]

lemma lowerStr_idem (s : Str) : lowerStr (lowerStr s) = lowerStr s := by
  unfold lowerStr
  rw [List.map_map]
  exact List.map_congr_left fun c _ => char_toLower_toLower c

lemma stripStr_sublist (s : Str) : List.Sublist (stripStr s) s := by
  unfold stripStr
  exact ((List.rdropWhile_prefix _ _).sublist).trans
    (List.dropWhile_suffix _).sublist

lemma stripStr_idem (s : Str) : stripStr (stripStr s) = stripStr s := by
  unfold stripStr
  have hdrop :
      (List.rdropWhile Char.isWhitespace
        (s.dropWhile Char.isWhitespace)).dropWhile Char.isWhitespace
      = List.rdropWhile Char.isWhitespace (s.dropWhile Char.isWhitespace) := by
    rw [List.dropWhile_eq_self_iff]
    intro hl
    have hpre := List.rdropWhile_prefix Char.isWhitespace
      (s.dropWhile Char.isWhitespace)
    have hl' : 0 < (s.dropWhile Char.isWhitespace).length :=
      Nat.lt_of_lt_of_le hl hpre.length_le
    simp only [List.get_eq_getElem]
    rw [hpre.getElem hl]
    have := List.dropWhile_get_zero_not Char.isWhitespace s hl'
    simpa [List.get_eq_getElem] using this
  rw [hdrop]
  exact List.rdropWhile_idempotent _ _

lemma normalizeQuery_idem (q : Str) :
    normalizeQuery (normalizeQuery q) = normalizeQuery q := by
  unfold normalizeQuery
  have hlow : lowerStr (stripStr (lowerStr q)) = stripStr (lowerStr q) := by
    unfold lowerStr
    refine (List.map_congr_left ?_).trans (List.map_id _)
    intro c hc
    have hmem : c ∈ lowerStr q := (stripStr_sublist _).subset hc
    obtain ⟨d, _, rfl⟩ := List.mem_map.mp hmem
    exact char_toLower_toLower d
  rw [hlow, stripStr_idem]

/-! ### Claim C3 -/

/-- C3: for every input query, the Query Expander first lower-cases and trims
it, and then, for every (informal, formal) pair in the static synonym table
whose informal term occurs as a substring of the normalized query, appends a
space followed by the formal term, accumulating one appended expansion per
matching pair in table iteration order. (The source checks each term against
the query as already extended by earlier expansions; for this table the two
coincide, which is what this theorem proves.) -/
theorem expander_appends_matched_formal_terms (q : Str) :
    expandQuery q = normalizeQuery q ++ synExtras (normalizeQuery q) :=
  expandQuery_eq q

/-! ### Claim C10 -/

/-- C10: the expanded query always begins with the lower-cased, trimmed
original query as a prefix, and each formal term is appended at most once per
table entry — the appended blocks are those of a sublist of the synonym
table, regardless of how often an informal term occurs in the query. -/
theorem expanded_query_prefix_and_once_per_entry (q : Str) :
    normalizeQuery q <+: expandQuery q ∧
      ∃ t, List.Sublist t SYNONYM_MAP ∧
        expandQuery q = normalizeQuery q ++ (t.map fun p => ' ' :: p.2).flatten := by
  refine ⟨?_, ⟨SYNONYM_MAP.filter fun p => decide (p.1 <:+: normalizeQuery q),
    List.filter_sublist _, ?_⟩⟩
  · rw [expandQuery_eq]
    exact List.prefix_append _ _
  · rw [expandQuery_eq]
    rfl

/-! ### Claim C5 -/

/-- C5 as stated is false: the raw query "FLU" contains no informal term of
the synonym table as a substring, yet expansion is not idempotent on it —
normalization lower-cases the query, creating a match that is re-expanded on
the second pass. -/
theorem expand_not_idempotent_on_unmatched_raw_query :
    (∀ p ∈ SYNONYM_MAP, ¬ p.1 <:+: "FLU".toList) ∧
      expandQuery (expandQuery "FLU".toList) ≠ expandQuery "FLU".toList := by
  exact ⟨by decide, by decide⟩

/-- C5 amended: query expansion is idempotent on queries whose normalized
(lower-cased, trimmed) form contains no informal term from the synonym
table: expand(expand(q)) = expand(q) whenever no informal term occurs as a
substring of the normalized query. -/
theorem expand_idempotent_of_no_normalized_match (q : Str)
    (h : ∀ p ∈ SYNONYM_MAP, ¬ p.1 <:+: normalizeQuery q) :
    expandQuery (expandQuery q) = expandQuery q := by
  have hext : synExtras (normalizeQuery q) = [] := by
    unfold synExtras
    rw [List.filter_eq_nil_iff.mpr fun p hp => by simpa using h p hp]
    rfl
  have h1 : expandQuery q = normalizeQuery q := by
    rw [expandQuery_eq, hext, List.append_nil]
  rw [h1, expandQuery_eq, normalizeQuery_idem, hext, List.append_nil, ← h1]

/-- Witness for the amended C5 at the concrete query "hello doctor". -/
theorem expand_idempotent_of_no_normalized_match_witness :
    (∀ p ∈ SYNONYM_MAP, ¬ p.1 <:+: normalizeQuery "hello doctor".toList) ∧
      expandQuery (expandQuery "hello doctor".toList)
        = expandQuery "hello doctor".toList :=
  ⟨by decide, expand_idempotent_of_no_normalized_match _ (by decide)⟩

/-! ### Lemmas: retrieval with a fixed result set -/

lemma retrieve_const (docs : List RetrievedDoc) (q : Str) :
    retrieve_icd_context (fun _ => docs) q
      = if docs.isEmpty then ([], []) else (combinedContext docs, docs) := by
  unfold retrieve_icd_context retrieve_icd_context_t
  by_cases hd : docs.isEmpty
  · cases hm : synFallbackMatch q <;> simp [hd, hm]
  · simp [hd]

/-! ### Claim C9 -/

/-- C9: for every user query and prior turn history, `medical_chat` returns
the history with exactly two entries appended — the new user turn followed by
the new assistant turn — with every prior entry unchanged, in order (both
returned components are this same updated history). -/
theorem chat_appends_exactly_two_turns (invoke : Str → List RetrievedDoc)
    (llm : Str → Str) (u : Str) (h : List ChatMsg) :
    (medical_chat invoke llm u h).2 = (medical_chat invoke llm u h).1 ∧
      ∃ a, (medical_chat invoke llm u h).1
        = h ++ [⟨roleUser, u⟩, ⟨roleAssistant, a⟩] :=
  ⟨rfl, ⟨_, rfl⟩⟩

/-! ### Claim C1 -/

/-- C1 as stated is false: with one retrieved chunk whose combined context is
below the 50-character threshold, the Answerer does return the fixed fallback
sentinel, but a citation footer is still appended — the answer is neither the
bare sentinel nor the sentinel with the "no exact match" marker. -/
theorem fallback_with_docs_still_cites_cex :
    ((medical_chat (fun _ => [exampleShortDoc]) (fun _ => []) "x".toList []).1
        = [⟨roleUser, "x".toList⟩,
           ⟨roleAssistant, fallbackAnswer ++ refsFooter [exampleShortDoc]⟩]) ∧
      fallbackAnswer ++ refsFooter [exampleShortDoc] ≠ fallbackAnswer ∧
      fallbackAnswer ++ refsFooter [exampleShortDoc]
        ≠ fallbackAnswer ++ noMatchFooter :=
  ⟨by decide, by decide, by decide⟩

/-- C1 amended: if no chunks were retrieved or the combined context is below
the 50-character threshold, `medical_chat` answers with the fixed fallback
sentinel and does not invoke the generative model (the result is a fixed
value, for every `llm`); the appended footer is the "no exact match" marker
when no chunks were retrieved, and the citation footer when (short) chunks
were retrieved. -/
theorem fallback_sentinel_skips_llm (docs : List RetrievedDoc) (q : Str)
    (h : docs = [] ∨ (combinedContext docs).length < 50) :
    ∀ llm, (medical_chat (fun _ => docs) llm q []).1
      = [⟨roleUser, q⟩, ⟨roleAssistant, fallbackAnswer ++
          (if docs.isEmpty then noMatchFooter else refsFooter docs)⟩] := by
  intro llm
  simp only [medical_chat, retrieve_const]
  by_cases hd : docs.isEmpty
  · simp [hd]
  · have hlen : (combinedContext docs).length < 50 := by
      rcases h with h | h
      · rw [h] at hd
        exact absurd rfl hd
      · exact h
    simp [hd, hlen]

/-- Witness for the amended C1 at a concrete empty retrieval. -/
theorem fallback_sentinel_skips_llm_witness :
    (([] : List RetrievedDoc) = [] ∨ (combinedContext []).length < 50) ∧
      (medical_chat (fun _ => ([] : List RetrievedDoc)) (fun _ => [])
          "q".toList []).1
        = [⟨roleUser, "q".toList⟩, ⟨roleAssistant, fallbackAnswer ++
            (if ([] : List RetrievedDoc).isEmpty then noMatchFooter
             else refsFooter [])⟩] :=
  ⟨Or.inl rfl, fallback_sentinel_skips_llm [] "q".toList (Or.inl rfl) _⟩

/-! ### Claim C2 -/

/-- C2 as stated is false: the citation footer is not deduplicated — with two
retrieved chunks carrying the same ICD code, the footer lists the identifier
link twice. -/
theorem citation_footer_not_deduplicated_cex :
    ((medical_chat (fun _ => exampleDupDocs) (fun _ => []) "x".toList []).1
        = [⟨roleUser, "x".toList⟩, ⟨roleAssistant,
            fallbackAnswer ++ (refsHeader ++ "[5A11](u), [5A11](u)".toList)⟩]) ∧
      ¬ (exampleDupDocs.map citationEntry).Nodup :=
  ⟨by decide, by decide⟩

/-- C2 amended: with at least one retrieved chunk, the appended citation
footer lists one identifier link per retrieved chunk, in retrieval order,
without deduplication; with zero retrieved chunks the "no exact match" marker
is appended instead (to the fallback sentinel) and no citation list appears. -/
theorem citation_footer_in_retrieval_order (docs : List RetrievedDoc)
    (q : Str) (llm : Str → Str) :
    (docs ≠ [] → ∃ body, (medical_chat (fun _ => docs) llm q []).1
        = [⟨roleUser, q⟩, ⟨roleAssistant, body ++ (refsHeader
            ++ List.intercalate ", ".toList (docs.map citationEntry))⟩]) ∧
      (docs = [] → (medical_chat (fun _ => docs) llm q []).1
        = [⟨roleUser, q⟩, ⟨roleAssistant, fallbackAnswer ++ noMatchFooter⟩]) := by
  constructor
  · intro hne
    have hd : docs.isEmpty = false := by simpa using hne
    refine ⟨if combinedContext docs = [] ∨ (combinedContext docs).length < 50
        then fallbackAnswer
        else stripStr (llm (buildPrompt (combinedContext docs) q)), ?_⟩
    simp only [medical_chat, retrieve_const, hd]
    simp [refsFooter, hne]
  · rintro rfl
    simp [medical_chat, retrieve_const]

/-- Witness for the amended C2 at a concrete one-chunk retrieval. -/
theorem citation_footer_in_retrieval_order_witness :
    ∃ body, (medical_chat (fun _ => [exampleShortDoc]) (fun _ => [])
        "x".toList []).1
      = [⟨roleUser, "x".toList⟩, ⟨roleAssistant, body ++ (refsHeader
          ++ List.intercalate ", ".toList ([exampleShortDoc].map citationEntry))⟩] :=
  (citation_footer_in_retrieval_order [exampleShortDoc] "x".toList
    (fun _ => [])).1 (by decide)

/-! ### Claim C4 -/

/-- C4: if the expanded query retrieves zero results, exactly one fallback
retrieval is performed, using only the formal synonym term of the first
informal term (in table order) matching the lower-cased original query, and
its result stands; if no informal term matches, no fallback retrieval occurs
and the empty result stands. -/
theorem retriever_fallback_once (invoke : Str → List RetrievedDoc)
    (query : Str) (h : invoke (expandQuery query) = []) :
    ((retrieve_icd_context_t invoke query).2
        = match synFallbackMatch query with
          | some p => [expandQuery query, p.2]
          | none => [expandQuery query]) ∧
      (synFallbackMatch query = none →
        retrieve_icd_context invoke query = ([], [])) ∧
      (∀ p, synFallbackMatch query = some p →
        (retrieve_icd_context invoke query).2 = invoke p.2) := by
  refine ⟨?_, ?_, ?_⟩
  · cases hm : synFallbackMatch query <;>
      simp [retrieve_icd_context_t, h, hm, apply_ite Prod.snd]
  · intro hm
    simp [retrieve_icd_context, retrieve_icd_context_t, h, hm]
  · intro p hm
    by_cases hi : (invoke p.2).isEmpty
    · rw [List.isEmpty_iff] at hi
      simp [retrieve_icd_context, retrieve_icd_context_t, h, hm, hi]
    · simp [retrieve_icd_context, retrieve_icd_context_t, h, hm, hi]

/-- Witness for C4 at a retriever returning no documents and the query
"heart attack": the trace shows the expanded query followed by exactly one
fallback call with the formal term. -/
theorem retriever_fallback_once_witness :
    ((fun _ => ([] : List RetrievedDoc)) (expandQuery "heart attack".toList)
        = []) ∧
      (retrieve_icd_context_t (fun _ => ([] : List RetrievedDoc))
          "heart attack".toList).2
        = [expandQuery "heart attack".toList, "myocardial infarction".toList] := by
  refine ⟨rfl, ?_⟩
  have h := (retriever_fallback_once (fun _ => ([] : List RetrievedDoc))
    "heart attack".toList rfl).1
  rw [h]
  decide

/-! ### Claim C7 -/

lemma pass1_true_aux (files : List InputFile) :
    ∀ (w : List (Str × Str)) (k : Nat),
      files.foldl
        (fun acc f =>
          if true && !hasDefinition f then (acc.1, acc.2 + 1)
          else (acc.1 ++ [outputFile f], acc.2)) (w, k)
      = (w ++ (files.filter hasDefinition).map outputFile,
         k + (files.filter fun f => !hasDefinition f).length) := by
  induction files with
  | nil => intro w k; simp
  | cons f fs ih =>
    intro w k
    simp only [List.foldl_cons]
    by_cases hf : hasDefinition f
    · rw [if_neg (by simp [hf])]
      rw [ih]
      simp [List.filter_cons, hf]
    · simp only [Bool.not_eq_true] at hf
      rw [if_pos (by simp [hf])]
      rw [ih]
      have h1 : List.filter hasDefinition (f :: fs)
          = List.filter hasDefinition fs := by
        simp [List.filter_cons, hf]
      have h2 : List.filter (fun g => !hasDefinition g) (f :: fs)
          = f :: List.filter (fun g => !hasDefinition g) fs := by
        simp [List.filter_cons, hf]
      rw [h1, h2]
      simp only [List.length_cons, Prod.mk.injEq]
      exact ⟨trivial, by omega⟩

/-- C7: with skip-on-missing-definitions enabled, pass 1 of `build_index`
writes exactly one output text file per record that has a definition (in
input order) and counts every record without one in the skipped total it
reports: records missing a definition produce no text file. -/
theorem skip_missing_defs_skips_and_counts (files : List InputFile) :
    pass1 true files
      = ((files.filter hasDefinition).map outputFile,
         (files.filter fun f => !hasDefinition f).length) := by
  unfold pass1
  simpa using pass1_true_aux files [] 0

/-! ### Claim C8 -/

lemma chunksOf_flatten_le {α : Type} (B : Nat) (hB : 0 < B) :
    ∀ (n : Nat) (l : List α), l.length ≤ n → (chunksOf B l).flatten = l := by
  intro n
  induction n with
  | zero =>
    intro l hl
    have h0 : l = [] := List.eq_nil_of_length_eq_zero (Nat.le_zero.mp hl)
    subst h0
    rw [chunksOf, dif_pos (Or.inl List.isEmpty_nil)]
    rfl
  | succ n ih =>
    intro l hl
    rw [chunksOf]
    by_cases hc : l.isEmpty ∨ B = 0
    · rw [dif_pos hc]
      rcases hc with hc | hc
      · rw [List.isEmpty_iff.mp hc]
        rfl
      · omega
    · rw [dif_neg hc]
      simp only [List.flatten_cons]
      rw [ih (l.drop B) (by simp only [List.length_drop]; omega)]
      exact List.take_append_drop B l

lemma chunksOf_sizes {α : Type} (B : Nat) (hB : 0 < B) :
    ∀ (n : Nat) (l : List α), l.length ≤ n →
      ∀ b ∈ chunksOf B l, b.length ≤ B ∧ b ≠ [] := by
  intro n
  induction n with
  | zero =>
    intro l hl b hb
    have h0 : l = [] := List.eq_nil_of_length_eq_zero (Nat.le_zero.mp hl)
    subst h0
    rw [chunksOf, dif_pos (Or.inl List.isEmpty_nil)] at hb
    exact absurd hb (List.not_mem_nil b)
  | succ n ih =>
    intro l hl b hb
    rw [chunksOf] at hb
    by_cases hc : l.isEmpty ∨ B = 0
    · rw [dif_pos hc] at hb
      exact absurd hb (List.not_mem_nil b)
    · rw [dif_neg hc] at hb
      have hne : l ≠ [] := fun h0 => hc (Or.inl (by rw [h0]; rfl))
      rcases List.mem_cons.mp hb with rfl | hb
      · refine ⟨by rw [List.length_take]; exact Nat.min_le_left _ _, ?_⟩
        have : 0 < (l.take B).length := by
          simp only [List.length_take]
          have := List.length_pos.mpr hne
          omega
        exact List.ne_nil_of_length_pos this
      · exact ih (l.drop B) (by simp only [List.length_drop]; omega) b hb

lemma persistLoop_eq_embeddedRun {α β : Type} (emb : List α → Option (List β))
    (B : Nat) (hB : 0 < B) :
    ∀ (n : Nat) (l : List α) (p : List β), l.length ≤ n →
      persistLoop emb B p l = p ++ embeddedRun emb (chunksOf B l) := by
  intro n
  induction n with
  | zero =>
    intro l p hl
    have h0 : l = [] := List.eq_nil_of_length_eq_zero (Nat.le_zero.mp hl)
    subst h0
    rw [persistLoop, dif_pos (Or.inl List.isEmpty_nil),
      chunksOf, dif_pos (Or.inl List.isEmpty_nil)]
    simp [embeddedRun]
  | succ n ih =>
    intro l p hl
    rw [persistLoop, chunksOf]
    by_cases hc : l.isEmpty ∨ B = 0
    · rw [dif_pos hc, dif_pos hc]
      simp [embeddedRun]
    · rw [dif_neg hc, dif_neg hc]
      cases he : emb (l.take B) with
      | none => simp [embeddedRun, he]
      | some es =>
        show persistLoop emb B (p ++ es) (l.drop B)
          = p ++ embeddedRun emb (l.take B :: chunksOf B (l.drop B))
        rw [ih (l.drop B) (p ++ es) (by simp only [List.length_drop]; omega)]
        simp [embeddedRun, he, List.append_assoc]

/-- C8: the Indexer processes the chunk list in fixed-size batches (every
batch nonempty and of size at most the batch size, and the batches
concatenate back to the chunk list), embedding each batch and appending it
to the persisted index; if embedding fails during some batch, the persisted
index holds exactly the embeddings of the batches that succeeded before it
(all previously persisted batches remain). -/
theorem indexer_batches_persist {α β : Type} (emb : List α → Option (List β))
    (B : Nat) (docs : List α) (hB : 0 < B) :
    (chunksOf B docs).flatten = docs ∧
      (∀ b ∈ chunksOf B docs, b.length ≤ B ∧ b ≠ []) ∧
      persistLoop emb B [] docs = embeddedRun emb (chunksOf B docs) := by
  refine ⟨chunksOf_flatten_le B hB docs.length docs le_rfl,
    chunksOf_sizes B hB docs.length docs le_rfl, ?_⟩
  rw [persistLoop_eq_embeddedRun emb B hB docs.length docs [] le_rfl,
    List.nil_append]

/-- Witness for C8: batch size 2 over five chunks with an embedder that
fails on the final one-element batch. -/
theorem indexer_batches_persist_witness :
    0 < 2 ∧ persistLoop (fun b => if b.length = 2 then some b else none) 2
        ([] : List Nat) [1, 2, 3, 4, 5]
      = embeddedRun (fun b => if b.length = 2 then some b else none)
          (chunksOf 2 [1, 2, 3, 4, 5]) :=
  ⟨by decide,
   (indexer_batches_persist (fun b => if b.length = 2 then some b else none)
     2 [1, 2, 3, 4, 5] (by decide)).2.2⟩

/-! ### Claim C6 -/

lemma splitText_drop_flatten (m o : Nat) (ho : o < m) :
    ∀ (n : Nat) (t : Str), t.length ≤ n → o ≤ t.length →
      ((splitText m o t).map fun d => d.drop o).flatten = t.drop o := by
  intro n
  induction n with
  | zero =>
    intro t hn hot
    have h0 : t = [] := List.eq_nil_of_length_eq_zero (Nat.le_zero.mp hn)
    subst h0
    rw [splitText, dif_pos (Or.inl (by simp))]
    simp
  | succ n ih =>
    intro t hn hot
    rw [splitText]
    by_cases hc : t.length ≤ m ∨ m ≤ o
    · rw [dif_pos hc]
      simp
    · rw [dif_neg hc]
      push_neg at hc
      simp only [List.map_cons, List.flatten_cons]
      rw [ih (t.drop (m - o)) (by simp only [List.length_drop]; omega)
        (by simp only [List.length_drop]; omega)]
      rw [List.drop_drop]
      rw [show m - o + o = m from by omega]
      rw [List.drop_take]
      have hdm : t.drop m = (t.drop o).drop (m - o) := by
        rw [List.drop_drop]
        congr 1
        omega
      rw [hdm]
      exact List.take_append_drop (m - o) (t.drop o)

lemma splitText_reconstruct (m o : Nat) (ho : o < m) (t : Str) :
    reconstructChunks o (splitText m o t) = t := by
  rw [splitText]
  by_cases hc : t.length ≤ m ∨ m ≤ o
  · rw [dif_pos hc]
    simp [reconstructChunks]
  · rw [dif_neg hc]
    push_neg at hc
    simp only [reconstructChunks]
    rw [splitText_drop_flatten m o ho (t.drop (m - o)).length _ le_rfl
      (by simp only [List.length_drop]; omega)]
    rw [List.drop_drop]
    rw [show m - o + o = m from by omega]
    exact List.take_append_drop m t

/-- C6: for every text and parameter pair with overlap below the maximum
chunk size, splitting the same text twice yields identical chunk sequences
(splitting is a pure function of its inputs), and concatenating the chunks
with the overlap removed from every chunk after the first reconstructs the
original text exactly. -/
theorem chunking_deterministic_and_reconstructs (m o : Nat) (t : Str)
    (h : o < m) :
    splitText m o t = splitText m o t ∧
      reconstructChunks o (splitText m o t) = t :=
  ⟨rfl, splitText_reconstruct m o h t⟩

/-- Witness for C6 at maximum size 5, overlap 2, on a concrete text. -/
theorem chunking_deterministic_and_reconstructs_witness :
    2 < 5 ∧ reconstructChunks 2 (splitText 5 2 "abcdefgh".toList)
      = "abcdefgh".toList :=
  ⟨by decide,
   (chunking_deterministic_and_reconstructs 5 2 "abcdefgh".toList (by decide)).2⟩

end IcdRag
